import Mathlib

/-!
Verification of the EEG preprocessing pipeline
(`01_eeg_preprocessing/preprocessing_utils.py`): the `epoching` segmenter,
the `mvnn` noise normalizer and the `save_prepr` consolidator, embedded
shallowly.  Epoch contents (one channel × time slice per event) are kept
abstract as a type `α`; tensors are nested lists indexed
condition × repetition; event markers are naturals.
-/

namespace EegPrepr

/-- Failure outcomes.  `segmentationError`, `configurationError`,
`shapeMismatchError` and `numericalInstabilityError` are the spec's error
taxonomy (§7), included so that statements can compare against them;
`unboundLocal` (a Python `UnboundLocalError`, a variable read before any
assignment) and `valueError` (a NumPy broadcast `ValueError`) are the
runtime failures the source code can actually raise. -/
inductive Err where
  | segmentationError
  | configurationError
  | shapeMismatchError
  | numericalInstabilityError
  | unboundLocal
  | valueError
  deriving Repr, DecidableEq

/-- Modelled from the spec: the global NumPy pseudo-random generator is an
external collaborator; the spec only requires that it be a deterministic
function of the seeded state (§4.1, §5).  We model the state as a natural
below `2 ^ 64` advanced by a linear congruential step. -/
def lcg (s : Nat) : Nat :=
  (6364136223846793005 * s + 1442695040888963407) % (2 ^ 64)

/-- Modelled from the spec: `np.random.seed(seed)` fixes the global state. -/
def seedState (seed : Nat) : Nat :=
  seed % (2 ^ 64)

/-- Modelled from the spec: `sklearn.utils.shuffle` draws from the global
generator and returns a permuted copy (Fisher–Yates, fuelled by the list
length); it also returns the advanced generator state. -/
def shuffleGo [Inhabited α] : Nat → List α → Nat → List α × Nat
  | 0, _, rng => ([], rng)
  | _ + 1, [], rng => ([], rng)
  | n + 1, l, rng =>
    let s := lcg rng
    let r := s % l.length
    let rest := shuffleGo n (l.eraseIdx r) s
    (l.getD r default :: rest.1, rest.2)

/-- `sklearn.utils.shuffle` on a list, threading the generator state. -/
def shuffleList [Inhabited α] (rng : Nat) (l : List α) : List α × Nat :=
  shuffleGo l.length l rng

/-- `np.unique`: the sorted list of the distinct values of `l`. -/
def npUnique (l : List Nat) : List Nat :=
  l.dedup.insertionSort (· ≤ ·)

/-- `np.where(events == c)[0]`: the positions of `events` holding `c`,
in increasing order. -/
def idxOf (events : List Nat) (c : Nat) : List Nat :=
  (events.enum.filter (fun p => p.2 == c)).map Prod.fst

/-- NumPy assignment of the gathered rows into a preallocated
`np.zeros` row of first-axis length `cap` (`sorted_data[i] = data[idx]`,
`merged_train[i] = ordered_data`): exact-length assignments succeed, a
single row broadcasts by replication, and every other length raises a
broadcast `ValueError`. -/
def npAssignRow (cap : Nat) (rows : List α) : Except Err (List α) :=
  if rows.length = cap then .ok rows
  else
    match rows with
    | [x] => .ok (List.replicate cap x)
    | _ => .error .valueError

/-- The per-condition selection loop of `epoching` (lines 90–95): for each
condition, find the indices of its events, shuffle them, keep at most
`cap`, gather the corresponding epochs and assign them into the
preallocated output row. -/
def epochSortGo [Inhabited α] (cap : Nat) (events : List Nat) (data : List α) :
    List Nat → Nat → Except Err (List (List α) × Nat)
  | [], rng => .ok ([], rng)
  | c :: cs, rng =>
    let sh := shuffleList rng (idxOf events c)
    let rows := (sh.1.take cap).map (fun j => data.getD j default)
    match npAssignRow cap rows with
    | .error e => .error e
    | .ok row =>
      match epochSortGo cap events data cs sh.2 with
      | .error e => .error e
      | .ok rest => .ok (row :: rest.1, rest.2)

/-- The condition axis produced for one session: the sorted distinct
markers after the target/catch sentinel `99999` has been removed
(lines 62–64 and 79). -/
def sessionConds (sess : List (Nat × α)) : List Nat :=
  npUnique ((sess.filter (fun p => p.1 ≠ 99999)).map Prod.fst)

/-- One session of `epoching` (lines 55–98).  A session is the event
stream delivered by the external event detector, each event paired with
its epoch content.  Events with the sentinel marker `99999` are dropped;
the epochs constructor is modelled from the spec as failing with
`SegmentationError` when no events remain (§4.1, §7); the surviving
epochs are then grouped by condition and subsampled. -/
def epochingSession [Inhabited α] (cap : Nat) (sess : List (Nat × α)) (rng : Nat) :
    Except Err (List (List α) × List Nat × Nat) :=
  let evs := sess.filter (fun p => p.1 ≠ 99999)
  if evs.isEmpty then .error .segmentationError
  else
    match epochSortGo cap (evs.map Prod.fst) (evs.map Prod.snd)
        (sessionConds sess) rng with
    | .error e => .error e
    | .ok res => .ok (res.1, sessionConds sess, res.2)

/-- The session loop of `epoching` (lines 38–99), threading the global
generator state through the sessions. -/
def epochingGo [Inhabited α] (cap : Nat) :
    List (List (Nat × α)) → Nat → Except Err (List (List (List α)) × List (List Nat) × Nat)
  | [], rng => .ok ([], [], rng)
  | sess :: rest, rng =>
    match epochingSession cap sess rng with
    | .error e => .error e
    | .ok res =>
      match epochingGo cap rest res.2.2 with
      | .error e => .error e
      | .ok later => .ok (res.1 :: later.1, res.2.1 :: later.2.1, later.2.2)

/-- `epoching` for one partition: it first reseeds the global generator
to the constant `20200220` (line 33), discarding whatever ambient state
the generator held, then processes every session. -/
def epochingM [Inhabited α] (cap : Nat) (sessions : List (List (Nat × α)))
    (ambient : Nat) : Except Err (List (List (List α)) × List (List Nat) × Nat) :=
  epochingGo cap sessions (seedState 20200220)

/-- The resampling decision of `epoching` (lines 70–72): the source tests
`args.sfreq < 1000` against the hardcoded constant `1000`, regardless of
the recording's native rate. -/
def resampleInvoked (nativeSfreq targetSfreq : Nat) : Bool :=
  decide (targetSfreq < 1000)

/-- `np.append(a, b, 1)`: concatenate two condition × repetition tensors
along the repetition axis; NumPy requires the condition counts to agree
and raises `ValueError` otherwise. -/
def appendAxis1 (a b : List (List α)) : Except Err (List (List α)) :=
  if a.length = b.length then .ok (List.zipWith (· ++ ·) a b) else .error .valueError

/-- Remaining iterations of the test-merge loop of `save_prepr`
(lines 213–217), after the first session seeded the accumulator. -/
def mergeTestGo (acc : List (List α)) : List (List (List α)) → Except Err (List (List α))
  | [] => .ok acc
  | t :: ts =>
    match appendAxis1 acc t with
    | .error e => .error e
    | .ok acc2 => mergeTestGo acc2 ts

/-- The test-merge loop of `save_prepr` (lines 213–221): `merged_test` is
only assigned on the first iteration, so with zero sessions the later
read of `merged_test` raises `UnboundLocalError`. -/
def mergeTest : List (List (List α)) → Except Err (List (List α))
  | [] => .error .unboundLocal
  | t :: ts => mergeTestGo t ts

/-- `white_data[np.where(img_cond == v)[0]]` concatenated along the
repetition axis (lines 254–260): all repetition blocks whose label is
`v`, joined in label-encounter order. -/
def gatherCond (labels : List Nat) (white : List (List α)) (v : Nat) : List α :=
  (((labels.zip white).filter (fun p => p.1 == v)).map Prod.snd).flatten

/-- The training-merge loop of `save_prepr` (lines 253–261), iterating
`i` over `range(U)` with `n` iterations left.  `reg` is the current value
of the Python variable `ordered_data`, which is only reassigned when the
looked-up label `i + 1` has at least one occurrence; a lookup with no
occurrence either reuses the stale register or, when the register was
never assigned, raises `UnboundLocalError`.  Each row is assigned into
the preallocated `merged_train[i]` of repetition length `L`. -/
def mergeAux (labels : List Nat) (white : List (List α)) (L : Nat) :
    Option (List α) → Nat → Nat → Except Err (List (List α))
  | _, _, 0 => .ok []
  | reg, i, n + 1 =>
    let g := gatherCond labels white (i + 1)
    match (if g.isEmpty then reg else some g) with
    | none => .error .unboundLocal
    | some od =>
      match npAssignRow L od with
      | .error e => .error e
      | .ok row =>
        match mergeAux labels white L (some od) (i + 1) n with
        | .error e => .error e
        | .ok rest => .ok (row :: rest)

/-- The whole training-merge loop: `U = len(np.unique(img_cond))`
iterations starting from an unassigned `ordered_data`. -/
def mergeLoop (labels : List Nat) (white : List (List α)) (L : Nat) :
    Except Err (List (List α)) :=
  mergeAux labels white L none 0 (npUnique labels).length

/-- NumPy concatenation along axis 0 requires every repetition block to
have the length of the first one. -/
def uniformRows (l : List (List α)) : Bool :=
  l.all (fun r => r.length == (l.headD []).length)

/-- The training half of `save_prepr` (lines 241–261): concatenate the
per-session tensors and label vectors along axis 0, then rebuild a
condition-indexed tensor whose preallocated repetition length is the
hardcoded `white_data.shape[1] * 2`.  With zero sessions the read of the
never-assigned `white_data` raises `UnboundLocalError`. -/
def trainMerge (wtrains : List (List (List α))) (condss : List (List Nat)) :
    Except Err (List (List α)) :=
  match wtrains with
  | [] => .error .unboundLocal
  | _ :: _ =>
    let white := wtrains.flatten
    if uniformRows white then
      mergeLoop (condss.flatten) white (2 * (white.headD []).length)
    else .error .valueError

/-- `idx = shuffle(np.arange(0, t.shape[1])); t = t[:, idx]` (lines
220–221 and 263–264): draw one random permutation of the repetition
positions and apply it to every condition row. -/
def permuteRows [Inhabited α] (rng : Nat) (t : List (List α)) : List (List α) × Nat :=
  let sh := shuffleList rng (List.range (t.headD []).length)
  (t.map (fun row => sh.1.map (fun j => row.getD j default)), sh.2)

/-- `save_prepr` (lines 212–277), with the file writes abstracted away:
it returns the pair of merged, repetition-shuffled test and training
tensors that the source stores under `preprocessed_eeg_data`.  An error
anywhere aborts the run, so no record (file) is produced. -/
def savePreprM [Inhabited α] (rng : Nat) (wtests wtrains : List (List (List α)))
    (condss : List (List Nat)) : Except Err (List (List α) × List (List α)) :=
  match mergeTest wtests with
  | .error e => .error e
  | .ok mergedTest =>
    let shTest := permuteRows rng mergedTest
    match trainMerge wtrains condss with
    | .error e => .error e
    | .ok mergedTrain =>
      let shTrain := permuteRows shTest.2 mergedTrain
      .ok (shTest.1, shTrain.1)

/-- Modelled from the spec: the driver script composing the stages
(absent from `src/`; §2 fixes the control flow as segmentation of both
partitions, per-session whitening, then one consolidation).  The
per-epoch whitening transform is passed as a function `whiten`; the
global generator state `ambient` held before the run is whatever the
process inherited, and each `epoching` call reseeds it. -/
def pipelineM [Inhabited α] (ambient : Nat)
    (testSessions trainSessions : List (List (Nat × α))) (whiten : α → α) :
    Except Err (List (List α) × List (List α)) :=
  match epochingM 20 testSessions ambient with
  | .error e => .error e
  | .ok test =>
    match epochingM 2 trainSessions test.2.2 with
    | .error e => .error e
    | .ok train =>
      let wtest := test.1.map (fun t => t.map (List.map whiten))
      let wtrain := train.1.map (fun t => t.map (List.map whiten))
      savePreprM train.2.2 wtest wtrain train.2.1

/-- The arithmetic mean of a list of channel × channel matrices
(`np.mean(…, axis=0)`, `sigma_cond.mean(axis=0)`, `sigma_part.mean(axis=0)`). -/
noncomputable def matMean {n : ℕ} (l : List (Matrix (Fin n) (Fin n) ℝ)) :
    Matrix (Fin n) (Fin n) ℝ :=
  ((l.length : ℝ))⁻¹ • l.sum

/-- `sigma_tot` of `mvnn` (lines 144–168): the per-condition covariance
estimates of the two partitions (delivered by the external shrinkage
estimator `_cov`) averaged across conditions, then across partitions. -/
noncomputable def sigmaTot {n : ℕ} (covTest covTrain : List (Matrix (Fin n) (Fin n) ℝ)) :
    Matrix (Fin n) (Fin n) ℝ :=
  matMean [matMean covTest, matMean covTrain]

open Classical in
/-- Modelled from the spec: `scipy.linalg.fractional_matrix_power(A, -0.5)`
(external collaborator, §6), the inverse principal square root — the
inverse of the unique positive-semidefinite square root; junk value `0`
outside its domain. -/
noncomputable def fmpNegHalf {n : ℕ} (A : Matrix (Fin n) (Fin n) ℝ) :
    Matrix (Fin n) (Fin n) ℝ :=
  if h : A.PosSemidef then h.sqrt⁻¹ else 0

/-- The whitening of one epoch slice `X` (channel × time) by `W`
(lines 173–178): reshape to time × channel, right-multiply by `W`,
swap back; elementwise this is `(Xᵀ * W)ᵀ`. -/
def whitenSlice {n τ : ℕ} (W : Matrix (Fin n) (Fin n) ℝ)
    (X : Matrix (Fin n) (Fin τ) ℝ) : Matrix (Fin n) (Fin τ) ℝ :=
  (X.transpose * W).transpose

/-- Whitening a whole condition × repetition tensor: every epoch slice is
transformed, producing a new tensor (the source builds it with `reshape`
and `@`, never writing into the inputs). -/
def whitenTensor {n τ : ℕ} (W : Matrix (Fin n) (Fin n) ℝ)
    (t : List (List (Matrix (Fin n) (Fin τ) ℝ))) :
    List (List (Matrix (Fin n) (Fin τ) ℝ)) :=
  t.map (fun row => row.map (whitenSlice W))

/-- C3 (counterexample): resampling is not invoked iff the native rate
exceeds the target.  With native rate 500 Hz and target 800 Hz the code
resamples (since `800 < 1000`) although the native rate does not exceed
the target. -/
theorem resample_not_iff_native_exceeds_target :
    resampleInvoked 500 800 = true ∧ ¬ (800 < 500) := by
  constructor
  · rfl
  · decide

/-- C3 (amended): resampling is invoked iff the configured target rate is
below the hardcoded constant 1000 Hz; this agrees with "native exceeds
target" exactly when the native rate is 1000 Hz. -/
theorem resample_iff_target_below_1000 (native target : Nat) :
    (resampleInvoked native target = true ↔ target < 1000) ∧
    (native = 1000 → (resampleInvoked native target = true ↔ target < native)) := by
  refine ⟨by simp [resampleInvoked], ?_⟩
  rintro rfl
  simp [resampleInvoked]

/-- C3 (witness): the amended statement instantiated at native rate
1000 Hz and target 200 Hz, the hypothesis discharged. -/
theorem resample_iff_target_below_1000_witness :
    (1000 : Nat) = 1000 ∧ (resampleInvoked 1000 200 = true ↔ (200 : Nat) < 1000) :=
  ⟨rfl, (resample_iff_target_below_1000 1000 200).2 rfl⟩

/-- `npUnique` is sorted under `≤`. -/
theorem npUnique_sorted_le (l : List Nat) : List.Sorted (· ≤ ·) (npUnique l) :=
  List.sorted_insertionSort _ _

/-- `npUnique` has no duplicates. -/
theorem npUnique_nodup (l : List Nat) : (npUnique l).Nodup :=
  ((List.perm_insertionSort _ _).nodup_iff).2 (List.nodup_dedup l)

/-- `npUnique` is strictly ascending. -/
theorem npUnique_sorted_lt (l : List Nat) : List.Sorted (· < ·) (npUnique l) :=
  (npUnique_sorted_le l).lt_of_le (npUnique_nodup l)

/-- `npUnique` enumerates exactly the values of its input. -/
theorem mem_npUnique {v : Nat} {l : List Nat} : v ∈ npUnique l ↔ v ∈ l := by
  rw [npUnique, List.mem_insertionSort, List.mem_dedup]

/-- C5: the condition axis returned by `epoching` for a session is
strictly ascending, duplicate-free, never contains the sentinel `99999`,
and enumerates exactly the non-sentinel markers observed. -/
theorem condition_axis_sorted_unique_no_sentinel (α : Type) (sess : List (Nat × α)) :
    List.Sorted (· < ·) (sessionConds sess) ∧ (sessionConds sess).Nodup ∧
    (99999 : Nat) ∉ sessionConds sess ∧
    (∀ v : Nat, v ∈ sessionConds sess ↔ v ∈ sess.map Prod.fst ∧ v ≠ 99999) := by
  have hmem : ∀ v : Nat, v ∈ sessionConds sess ↔ v ∈ sess.map Prod.fst ∧ v ≠ 99999 := by
    intro v
    rw [sessionConds, mem_npUnique]
    simp only [List.mem_map, List.mem_filter, decide_not]
    constructor
    · rintro ⟨p, ⟨hp, hne⟩, rfl⟩
      simp only [Bool.not_eq_eq_eq_not, Bool.not_true, decide_eq_false_iff_not] at hne
      exact ⟨⟨p, hp, rfl⟩, hne⟩
    · rintro ⟨⟨p, hp, rfl⟩, hne⟩
      refine ⟨p, ⟨hp, ?_⟩, rfl⟩
      simpa using hne
  refine ⟨npUnique_sorted_lt _, npUnique_nodup _, ?_, hmem⟩
  intro h
  exact ((hmem 99999).1 h).2 rfl

/-- C6: whitening preserves the tensor shape in every axis — the
condition-axis length, each repetition-row length, and (by construction
over the same channel and time index types) the channel and time axes —
and produces a new tensor each of whose slices is the elementwise linear
transform `(Xᵀ W)ᵀ` of the corresponding input slice, the inputs being
left as they are. -/
theorem mvnn_whitening_preserves_shape (n τ : ℕ) (W : Matrix (Fin n) (Fin n) ℝ)
    (t : List (List (Matrix (Fin n) (Fin τ) ℝ))) :
    (whitenTensor W t).length = t.length ∧
    (∀ i : Nat, (whitenTensor W t)[i]? = t[i]?.map (fun row => row.map (whitenSlice W))) ∧
    (∀ i : Nat, (whitenTensor W t)[i]?.map List.length = t[i]?.map List.length) ∧
    (∀ (X : Matrix (Fin n) (Fin τ) ℝ) (c : Fin n) (s : Fin τ),
      whitenSlice W X c s = ∑ c2, X c2 s * W c2 c) := by
  refine ⟨List.length_map _ _, fun i => List.getElem?_map _ t i, fun i => ?_, fun X c s => ?_⟩
  · rw [whitenTensor, List.getElem?_map]
    cases t[i]? <;> simp
  · simp [whitenSlice, Matrix.mul_apply, Matrix.transpose_apply]

/-- C7: the pipeline is deterministic — its random subsampling and
permutation choices derive only from the constant seed `20200220` fixed
inside `epoching`, so two executions over identical raw input (whatever
ambient generator states they start from) produce identical outputs. -/
theorem pipeline_deterministic_fixed_seed (α : Type) [Inhabited α] (a1 a2 : Nat)
    (testSessions trainSessions : List (List (Nat × α))) (whiten : α → α) :
    pipelineM a1 testSessions trainSessions whiten
      = pipelineM a2 testSessions trainSessions whiten := rfl

/-- C10 (counterexample): with an empty session list `save_prepr` fails
with an `UnboundLocalError` (the never-assigned `merged_test` is read),
not with the spec's `ConfigurationError`. -/
theorem save_prepr_empty_sessions_not_configuration_error :
    savePreprM 0 ([] : List (List (List Nat))) [] [] = .error .unboundLocal ∧
    Err.unboundLocal ≠ Err.configurationError := by
  exact ⟨rfl, by decide⟩

/-- C10 (amended): with an empty session list `save_prepr` fails before
returning or writing any output, but with an uncaught
`UnboundLocalError` rather than a `ConfigurationError`. -/
theorem save_prepr_empty_sessions_unbound_local (α : Type) [Inhabited α] (rng : Nat) :
    savePreprM rng ([] : List (List (List α))) [] [] = .error .unboundLocal := rfl

/-- The modelled shuffle returns a list of the same length. -/
theorem shuffleGo_fst_length {α : Type} [Inhabited α] :
    ∀ (n : Nat) (l : List α) (rng : Nat), l.length = n → ((shuffleGo n l rng).1).length = n
  | 0, _, _, _ => by simp [shuffleGo]
  | _ + 1, [], _, h => by simp at h
  | n + 1, x :: xs, rng, h => by
    have hlt : lcg rng % (xs.length + 1) < (x :: xs).length := Nat.mod_lt _ (by simp)
    have herase : ((x :: xs).eraseIdx (lcg rng % (xs.length + 1))).length = n := by
      rw [List.length_eraseIdx_of_lt hlt]
      simp only [List.length_cons] at h ⊢
      omega
    simp only [shuffleGo, List.length_cons]
    rw [shuffleGo_fst_length n _ _ herase]

/-- `shuffleList` returns a list of the same length. -/
theorem shuffleList_fst_length {α : Type} [Inhabited α] (rng : Nat) (l : List α) :
    ((shuffleList rng l).1).length = l.length :=
  shuffleGo_fst_length l.length l rng rfl

/-- A NumPy row assignment that succeeds always yields a row of exactly
the preallocated length. -/
theorem npAssignRow_ok_length {α : Type} {cap : Nat} {rows r : List α}
    (h : npAssignRow cap rows = .ok r) : r.length = cap := by
  by_cases hc : rows.length = cap
  · unfold npAssignRow at h
    rw [if_pos hc] at h
    cases h
    exact hc
  · unfold npAssignRow at h
    rw [if_neg hc] at h
    rcases rows with _ | ⟨x, _ | ⟨y, t⟩⟩
    · simp at h
    · cases h
      simp
    · simp at h

/-- C2 (counterexample): the repetition-axis length is not
`min(cap, available)`.  In the training partition (cap 2), a condition
with a single available epoch yields a row of length 2 — the lone epoch
broadcast twice — where `min(cap, available) = 1`. -/
theorem epoching_min_cap_available_refuted :
    epochSortGo 2 [1] [(42 : Nat)] [1] 0 = .ok ([[42, 42]], 1442695040888963407) ∧
    ([[(42 : Nat), 42]].map List.length = [2]) ∧
    min 2 (idxOf [1] 1).length = 1 ∧ (2 : Nat) ≠ 1 := by
  refine ⟨rfl, rfl, by decide, by decide⟩

/-- C2 (amended): whenever the per-condition selection of `epoching`
succeeds, every output row has repetition length exactly the cap, never
the observed count: a condition with exactly one available epoch is
silently broadcast to fill the cap, and a condition with at least two
but fewer than cap available epochs makes the assignment raise a
broadcast `ValueError` instead of degrading gracefully. -/
theorem epoching_repetition_axis_always_cap (α : Type) [Inhabited α] (cap : Nat)
    (events : List Nat) (data : List α) (conds : List Nat) (rng : Nat) :
    (∀ res, epochSortGo cap events data conds rng = .ok res →
        ∀ row ∈ res.1, row.length = cap) ∧
    (∀ c, conds = [c] → (idxOf events c).length = 1 → 1 < cap →
        ∃ x, epochSortGo cap events data conds rng
          = .ok ([List.replicate cap x], (shuffleList rng (idxOf events c)).2)) ∧
    (∀ c cs, conds = c :: cs → 2 ≤ (idxOf events c).length → (idxOf events c).length < cap →
        epochSortGo cap events data conds rng = .error .valueError) := by
  refine ⟨?_, ?_, ?_⟩
  · induction conds generalizing rng with
    | nil =>
      intro res h row hrow
      simp only [epochSortGo] at h
      cases h
      simp at hrow
    | cons c cs ih =>
      intro res h row hrow
      simp only [epochSortGo] at h
      rcases hassign : npAssignRow cap (((shuffleList rng (idxOf events c)).1.take cap).map
          (fun j => data.getD j default)) with e | r
      · rw [hassign] at h
        simp at h
      · rw [hassign] at h
        rcases hrec : epochSortGo cap events data cs (shuffleList rng (idxOf events c)).2
            with e2 | rest
        · rw [hrec] at h
          simp at h
        · rw [hrec] at h
          simp only [Except.ok.injEq] at h
          rw [← h] at hrow
          rcases List.mem_cons.1 hrow with hhead | htail
          · rw [hhead]
            exact npAssignRow_ok_length hassign
          · exact ih _ rest hrec row htail
  · rintro c rfl h1 hcap
    obtain ⟨j, hj⟩ := List.length_eq_one.1
      ((shuffleList_fst_length rng (idxOf events c)).trans h1)
    refine ⟨data.getD j default, ?_⟩
    obtain ⟨k, rfl⟩ : ∃ k, cap = k + 1 := ⟨cap - 1, by omega⟩
    have h1ne : ¬ ((1 : Nat) = k + 1) := by omega
    simp [epochSortGo, hj, npAssignRow, h1ne]
  · rintro c cs rfl h2 hlt
    have hlen1 : (((shuffleList rng (idxOf events c)).1.take cap).map
        (fun j => data.getD j default)).length = (idxOf events c).length := by
      rw [List.length_map, List.length_take, shuffleList_fst_length]
      omega
    have hassign : npAssignRow cap (((shuffleList rng (idxOf events c)).1.take cap).map
        (fun j => data.getD j default)) = .error .valueError := by
      generalize ((shuffleList rng (idxOf events c)).1.take cap).map
        (fun j => data.getD j default) = rows at hlen1
      rcases rows with _ | ⟨x, _ | ⟨y, t⟩⟩
      · simp at hlen1
        omega
      · simp at hlen1
        omega
      · unfold npAssignRow
        rw [if_neg (by omega)]
    simp only [epochSortGo]
    rw [hassign]

/-- C2 (witness): the amended statement at concrete inputs — a training
run with one available epoch (broadcast to two), and a test run with 15
available epochs (broadcast `ValueError`). -/
theorem epoching_repetition_axis_always_cap_witness :
    (∀ row ∈ ([[(42 : Nat), 42]] : List (List Nat)), row.length = 2) ∧
    (∃ x : Nat, epochSortGo 2 [1] [(42 : Nat)] [1] 0
        = .ok ([List.replicate 2 x], (shuffleList 0 (idxOf [1] 1)).2)) ∧
    epochSortGo 20 (List.replicate 15 1) (List.replicate 15 (7 : Nat)) [1] 0
      = .error .valueError := by
  refine ⟨fun row hrow => ?_, ?_, ?_⟩
  · exact (epoching_repetition_axis_always_cap Nat 2 [1] [42] [1] 0).1
      ([[42, 42]], (shuffleList 0 (idxOf [1] 1)).2) rfl row hrow
  · exact (epoching_repetition_axis_always_cap Nat 2 [1] [42] [1] 0).2.1
      1 rfl (by decide) (by decide)
  · exact (epoching_repetition_axis_always_cap Nat 20 (List.replicate 15 1)
      (List.replicate 15 7) [1] 0).2.2 1 [] rfl (by decide) (by decide)

/-- `npAssignRow` can only fail with a broadcast `ValueError`. -/
theorem npAssignRow_error {α : Type} {cap : Nat} {rows : List α} {e : Err}
    (h : npAssignRow cap rows = .error e) : e = .valueError := by
  unfold npAssignRow at h
  split at h
  · cases h
  · rcases rows with _ | ⟨x, _ | ⟨y, t⟩⟩
    · exact (Except.error.inj h).symm
    · cases h
    · exact (Except.error.inj h).symm

/-- A label with no occurrence gathers no repetition block. -/
theorem gatherCond_eq_nil {α : Type} {labels : List Nat} {white : List (List α)}
    {v : Nat} (h : v ∉ labels) : gatherCond labels white v = [] := by
  unfold gatherCond
  have hf : (labels.zip white).filter (fun p => p.1 == v) = [] := by
    rw [List.filter_eq_nil_iff]
    rintro ⟨a, b⟩ hp
    have ha : a ∈ labels := (List.of_mem_zip hp).1
    simp only [beq_iff_eq]
    rintro rfl
    exact h ha
  rw [hf]
  rfl

/-- A successful training-merge loop returns one row per iteration. -/
theorem mergeAux_ok_length {α : Type} {labels : List Nat} {white : List (List α)} {L : Nat} :
    ∀ {n i : Nat} {reg : Option (List α)} {rows : List (List α)},
      mergeAux labels white L reg i n = .ok rows → rows.length = n := by
  intro n
  induction n with
  | zero =>
    intro i reg rows h
    simp only [mergeAux] at h
    cases h
    rfl
  | succ m ih =>
    intro i reg rows h
    simp only [mergeAux] at h
    rcases hd : (if (gatherCond labels white (i + 1)).isEmpty then reg
        else some (gatherCond labels white (i + 1))) with _ | od
    · rw [hd] at h
      cases h
    · rw [hd] at h
      dsimp only at h
      rcases hassign : npAssignRow L od with e | row
      · rw [hassign] at h
        cases h
      · rw [hassign] at h
        rcases hrec : mergeAux labels white L (some od) (i + 1) m with e | rest
        · rw [hrec] at h
          cases h
        · rw [hrec] at h
          cases h
          simp [ih hrec]

/-- In a successful training-merge loop, an iteration whose looked-up
label gathers nothing reuses the stale register, so its row equals the
previous iteration's row. -/
theorem mergeAux_stale {α : Type} {labels : List Nat} {white : List (List α)} {L : Nat} :
    ∀ {n i : Nat} {reg : Option (List α)} {rows : List (List α)},
      mergeAux labels white L reg i n = .ok rows →
      ∀ k, k + 1 < n → gatherCond labels white (i + k + 2) = [] →
        rows[k + 1]? = rows[k]? := by
  intro n
  induction n with
  | zero =>
    intro i reg rows _ k hk
    omega
  | succ m ih =>
    intro i reg rows h k hk hg
    simp only [mergeAux] at h
    rcases hd : (if (gatherCond labels white (i + 1)).isEmpty then reg
        else some (gatherCond labels white (i + 1))) with _ | od
    · rw [hd] at h
      cases h
    · rw [hd] at h
      dsimp only at h
      rcases hassign : npAssignRow L od with e | row
      · rw [hassign] at h
        cases h
      · rw [hassign] at h
        rcases hrec : mergeAux labels white L (some od) (i + 1) m with e | rest
        · rw [hrec] at h
          cases h
        · rw [hrec] at h
          cases h
          cases k with
          | zero =>
            obtain ⟨m2, rfl⟩ : ∃ m2, m = m2 + 1 := ⟨m - 1, by omega⟩
            simp only [mergeAux] at hrec
            have hg2 : gatherCond labels white (i + 1 + 1) = [] := by
              have he : i + 1 + 1 = i + 0 + 2 := by omega
              rw [he]
              exact hg
            rw [hg2] at hrec
            simp only [List.isEmpty_nil, if_true] at hrec
            rw [hassign] at hrec
            rcases hrec2 : mergeAux labels white L (some od) (i + 1 + 1) m2 with e2 | rest2
            · rw [hrec2] at hrec
              cases hrec
            · rw [hrec2] at hrec
              cases hrec
              simp
          | succ k2 =>
            have hg2 : gatherCond labels white ((i + 1) + k2 + 2) = [] := by
              have he : (i + 1) + k2 + 2 = i + (k2 + 1) + 2 := by omega
              rw [he]
              exact hg
            have hrest := ih hrec k2 (by omega) hg2
            simpa using hrest

/-- The training-merge loop fails only with `UnboundLocalError` or a
broadcast `ValueError`. -/
theorem mergeAux_error_cases {α : Type} {labels : List Nat} {white : List (List α)} {L : Nat} :
    ∀ {n i : Nat} {reg : Option (List α)} {e : Err},
      mergeAux labels white L reg i n = .error e → e = .unboundLocal ∨ e = .valueError := by
  intro n
  induction n with
  | zero =>
    intro i reg e h
    simp only [mergeAux] at h
    cases h
  | succ m ih =>
    intro i reg e h
    simp only [mergeAux] at h
    rcases hd : (if (gatherCond labels white (i + 1)).isEmpty then reg
        else some (gatherCond labels white (i + 1))) with _ | od
    · rw [hd] at h
      exact .inl (Except.error.inj h).symm
    · rw [hd] at h
      dsimp only at h
      rcases hassign : npAssignRow L od with e2 | row
      · rw [hassign] at h
        exact .inr ((Except.error.inj h).symm.trans (npAssignRow_error hassign))
      · rw [hassign] at h
        rcases hrec : mergeAux labels white L (some od) (i + 1) m with e3 | rest
        · rw [hrec] at h
          exact (Except.error.inj h).symm ▸ ih hrec
        · rw [hrec] at h
          cases h

/-- C8: the training merge of `save_prepr` looks up the dense label
values `1..U`; when the very first value has zero occurrences the merge
raises an uncaught `UnboundLocalError`; when a later value `v` has zero
occurrences but the merge completes, row `v-1` is silently filled with
the previously gathered condition's data (it equals row `v-2`); and no
`ShapeMismatchError` or `ConfigurationError` is ever signalled. -/
theorem save_prepr_merge_stale_or_unbound (α : Type) (labels : List Nat)
    (white : List (List α)) (L : Nat) :
    (1 ≤ (npUnique labels).length → (1 : Nat) ∉ labels →
        mergeLoop labels white L = .error .unboundLocal) ∧
    (∀ rows, mergeLoop labels white L = .ok rows →
        rows.length = (npUnique labels).length ∧
        ∀ v, 2 ≤ v → v ≤ (npUnique labels).length → v ∉ labels →
          rows[v - 1]? = rows[v - 2]? ∧ rows[v - 1]? ≠ none) ∧
    (∀ e, mergeLoop labels white L = .error e →
        e ≠ .configurationError ∧ e ≠ .shapeMismatchError) := by
  refine ⟨?_, ?_, ?_⟩
  · intro hU h1
    obtain ⟨u, hu⟩ : ∃ u, (npUnique labels).length = u + 1 :=
      ⟨(npUnique labels).length - 1, by omega⟩
    unfold mergeLoop
    rw [hu]
    simp only [mergeAux, Nat.zero_add]
    rw [gatherCond_eq_nil h1]
    simp
  · intro rows h
    have hlen := mergeAux_ok_length h
    refine ⟨hlen, fun v h2 hU hv => ?_⟩
    have hgather : gatherCond labels white (0 + (v - 2) + 2) = [] := by
      have he : 0 + (v - 2) + 2 = v := by omega
      rw [he]
      exact gatherCond_eq_nil hv
    have hstale := mergeAux_stale h (v - 2) (by omega) hgather
    have he1 : v - 2 + 1 = v - 1 := by omega
    rw [he1] at hstale
    refine ⟨hstale, ?_⟩
    rw [List.getElem?_eq_getElem (by omega)]
    simp
  · intro e h
    rcases mergeAux_error_cases h with rfl | rfl
    · exact ⟨by decide, by decide⟩
    · exact ⟨by decide, by decide⟩

/-- C8 (witness): labels `[1,1,3]` (value 2 absent) with three
2-repetition blocks: the merge completes and row 1 silently repeats
row 0. -/
theorem save_prepr_merge_stale_witness :
    mergeLoop [1, 1, 3] [[(0 : Nat), 1], [2, 3], [4, 5]] 4
      = .ok [[0, 1, 2, 3], [0, 1, 2, 3]] ∧
    ([[(0 : Nat), 1, 2, 3], [0, 1, 2, 3]] : List (List Nat))[1]?
      = ([[(0 : Nat), 1, 2, 3], [0, 1, 2, 3]] : List (List Nat))[0]? ∧
    ([[(0 : Nat), 1, 2, 3], [0, 1, 2, 3]] : List (List Nat))[1]? ≠ none := by
  have h := (save_prepr_merge_stale_or_unbound Nat [1, 1, 3] [[0, 1], [2, 3], [4, 5]] 4).2.1
    [[0, 1, 2, 3], [0, 1, 2, 3]] rfl
  have h2 := h.2 2 (by decide) (by decide) (by decide)
  exact ⟨rfl, h2.1, h2.2⟩

/-- Labels strictly below the start of a `range'` gather nothing. -/
theorem filter_zip_range'_eq_nil {β : Type} (v a2 n : Nat) (l : List β) (hv : v < a2) :
    ((List.range' a2 n).zip l).filter (fun p => p.1 == v) = [] := by
  rw [List.filter_eq_nil_iff]
  rintro ⟨b, x⟩ hp
  have hb : b ∈ List.range' a2 n := (List.of_mem_zip hp).1
  have hb2 := (List.mem_range'_1.1 hb).1
  simp only [beq_iff_eq]
  omega

/-- In the zip of a dense label range with a block list, filtering for
one in-range label yields exactly the one matching pair. -/
theorem filter_zip_range'_singleton {β : Type} :
    ∀ (A : List β) (a v : Nat), a ≤ v → v < a + A.length →
      ∃ x, A[v - a]? = some x ∧
        ((List.range' a A.length).zip A).filter (fun p => p.1 == v) = [(v, x)]
  | [], _, _, h1, h2 => by
    simp only [List.length_nil, Nat.add_zero] at h2
    omega
  | y :: ys, a, v, h1, h2 => by
    by_cases hv : v = a
    · subst hv
      refine ⟨y, by simp, ?_⟩
      simp only [List.length_cons, List.range'_succ, List.zip_cons_cons, List.filter_cons,
        beq_self_eq_true, if_true]
      rw [filter_zip_range'_eq_nil v (v + 1) ys.length ys (by omega)]
    · have h2' : v < (a + 1) + ys.length := by
        simp only [List.length_cons] at h2
        omega
      obtain ⟨x, hx, hf⟩ := filter_zip_range'_singleton ys (a + 1) v (by omega) h2'
      refine ⟨x, ?_, ?_⟩
      · have hsub : v - a = (v - (a + 1)) + 1 := by omega
        rw [hsub, List.getElem?_cons_succ]
        exact hx
      · simp only [List.length_cons, List.range'_succ, List.zip_cons_cons, List.filter_cons]
        have hne : ((a, y).1 == v) = false := by
          simp only [beq_eq_false_iff_ne, ne_eq]
          omega
        rw [hne]
        simpa using hf

/-- With two sessions of dense labels `1..C`, the gather for label
`k + 1` is session 1's block `k` followed by session 2's block `k`. -/
theorem gatherCond_two_dense {α : Type} (A B : List (List α)) (C k : Nat)
    (hA : A.length = C) (hB : B.length = C) (hk : k < C) :
    ∃ ra rb, A[k]? = some ra ∧ B[k]? = some rb ∧
      gatherCond (List.range' 1 C ++ List.range' 1 C) (A ++ B) (k + 1) = ra ++ rb := by
  obtain ⟨ra, hra, hfa⟩ := filter_zip_range'_singleton A 1 (k + 1) (by omega) (by omega)
  obtain ⟨rb, hrb, hfb⟩ := filter_zip_range'_singleton B 1 (k + 1) (by omega) (by omega)
  have hsub : k + 1 - 1 = k := by omega
  rw [hsub] at hra hrb
  refine ⟨ra, rb, hra, hrb, ?_⟩
  unfold gatherCond
  rw [hA] at hfa
  rw [hB] at hfb
  rw [List.zip_append (by simp [hA]), List.filter_append, hfa, hfb]
  simp

/-- When every looked-up label gathers exactly the preallocated
repetition length, the training-merge loop succeeds and returns the
gathered rows in order. -/
theorem mergeAux_all_present {α : Type} {labels : List Nat} {white : List (List α)}
    {L : Nat} (hL : 1 ≤ L) :
    ∀ (n i : Nat) (reg : Option (List α)),
      (∀ k, k < n → (gatherCond labels white (i + k + 1)).length = L) →
      mergeAux labels white L reg i n
        = .ok ((List.range n).map (fun k => gatherCond labels white (i + k + 1))) := by
  intro n
  induction n with
  | zero =>
    intro i reg _
    simp [mergeAux]
  | succ m ih =>
    intro i reg hall
    have h0 : (gatherCond labels white (i + 1)).length = L := by
      have h00 := hall 0 (by omega)
      simpa using h00
    rcases hg : gatherCond labels white (i + 1) with _ | ⟨gx, gxs⟩
    · rw [hg] at h0
      simp at h0
      omega
    · rw [hg] at h0
      have hassign : npAssignRow L (gx :: gxs) = .ok (gx :: gxs) := by
        unfold npAssignRow
        rw [if_pos h0]
      have hall2 : ∀ k, k < m → (gatherCond labels white ((i + 1) + k + 1)).length = L := by
        intro k hk
        have hidx : (i + 1) + k + 1 = i + (k + 1) + 1 := by omega
        rw [hidx]
        exact hall (k + 1) (by omega)
      simp only [mergeAux]
      rw [hg]
      simp only [List.isEmpty_cons, Bool.false_eq_true, if_false]
      rw [hassign, ih (i + 1) (some (gx :: gxs)) hall2]
      rw [List.range_succ_eq_map, List.map_cons, List.map_map]
      have hidx0 : i + 0 + 1 = i + 1 := by omega
      have hidx : ∀ k : Nat, i + Nat.succ k + 1 = (i + 1) + k + 1 := by omega
      simp only [hidx0, hg, Function.comp_def, hidx]

/-- The doubled dense range has the range itself as its `np.unique`. -/
theorem npUnique_double_range' (C : Nat) :
    npUnique (List.range' 1 C ++ List.range' 1 C) = List.range' 1 C := by
  have hnd : (List.range' 1 C).Nodup := List.nodup_range' 1 C
  have hsorted : List.Sorted (· ≤ ·) (List.range' 1 C) := List.pairwise_le_range' 1 C
  refine List.eq_of_perm_of_sorted ?_ (npUnique_sorted_le _) hsorted
  refine List.perm_of_nodup_nodup_toFinset_eq (npUnique_nodup _) hnd ?_
  ext v
  simp [List.mem_toFinset, mem_npUnique]

/-- Sum of a map that is constant on its input list. -/
theorem sum_map_const_of_forall {β : Type} (l : List β) (f : β → Nat) (c : Nat)
    (h : ∀ x ∈ l, f x = c) : (l.map f).sum = l.length * c := by
  induction l with
  | nil => simp
  | cons x xs ih =>
    have hx := h x (by simp)
    have hxs := ih (fun y hy => h y (by simp [hy]))
    simp only [List.map_cons, List.sum_cons, List.length_cons, hx, hxs]
    ring

/-- C1 (counterexample): the merged training repetition-axis length is
not the total contributed by all sessions.  With a single session
(`n_ses = 1`) contributing one condition with its 2-repetition cap, the
hardcoded doubling preallocates rows of length 4, only 2 repetitions are
gathered, and the merge aborts with a broadcast `ValueError` instead of
producing a tensor with repetition-axis length `2 * n_ses = 2`. -/
theorem training_merge_single_session_fails :
    trainMerge [[[(0 : Nat), 1]]] [[1]] = .error .valueError := rfl

/-- C1 (amended): for exactly two sessions with the same dense condition
labels `1..C` and a uniform per-session repetition count `m ≥ 1`, the
training merge succeeds; each condition's merged row stacks session 1's
repetition block then session 2's, its length is `2m` (the total
contributed, which the hardcoded doubling matches only in this
two-session case), and total repetition mass is preserved. -/
theorem training_merge_two_sessions_preserves_mass (α : Type) (C m : Nat)
    (A B : List (List α)) (hC : 1 ≤ C) (hm : 1 ≤ m) (hA : A.length = C)
    (hB : B.length = C) (hrows : ∀ r ∈ A ++ B, r.length = m) :
    ∃ rows, trainMerge [A, B] [List.range' 1 C, List.range' 1 C] = .ok rows ∧
      rows.length = C ∧
      (∀ k, k < C → ∃ ra rb, A[k]? = some ra ∧ B[k]? = some rb ∧
          rows[k]? = some (ra ++ rb) ∧ (ra ++ rb).length = 2 * m) ∧
      (rows.map List.length).sum = ((A ++ B).map List.length).sum := by
  obtain ⟨a0, A1, rfl⟩ : ∃ a0 A1, A = a0 :: A1 := by
    rcases A with _ | ⟨a0, A1⟩
    · simp at hA
      omega
    · exact ⟨a0, A1, rfl⟩
  have ha0 : a0.length = m := hrows a0 (by simp)
  have huni : uniformRows ((a0 :: A1) ++ B) = true := by
    unfold uniformRows
    rw [List.all_eq_true]
    intro r hr
    have h1 := hrows r hr
    simp [h1, ha0]
  have hL : (((a0 :: A1) ++ B).headD []).length = m := by
    simp [ha0]
  have hgath : ∀ k, k < C → (gatherCond (List.range' 1 C ++ List.range' 1 C)
      ((a0 :: A1) ++ B) (0 + k + 1)).length = 2 * m := by
    intro k hk
    obtain ⟨ra, rb, hra, hrb, hg⟩ := gatherCond_two_dense (a0 :: A1) B C k hA hB hk
    have h1 := hrows ra (List.mem_append_left _ (List.getElem?_mem hra))
    have h2 := hrows rb (List.mem_append_right _ (List.getElem?_mem hrb))
    simp only [Nat.zero_add, hg, List.length_append, h1, h2]
    omega
  have hmerge := @mergeAux_all_present α (List.range' 1 C ++ List.range' 1 C)
    ((a0 :: A1) ++ B) (2 * m) (by omega) C 0 none hgath
  refine ⟨(List.range C).map (fun k => gatherCond (List.range' 1 C ++ List.range' 1 C)
    ((a0 :: A1) ++ B) (0 + k + 1)), ?_, ?_, ?_, ?_⟩
  · simp only [trainMerge, List.flatten_cons, List.flatten_nil, List.append_nil]
    rw [if_pos huni, mergeLoop, npUnique_double_range' C, List.length_range', hL, hmerge]
  · simp
  · intro k hk
    obtain ⟨ra, rb, hra, hrb, hg⟩ := gatherCond_two_dense (a0 :: A1) B C k hA hB hk
    have h1 := hrows ra (List.mem_append_left _ (List.getElem?_mem hra))
    have h2 := hrows rb (List.mem_append_right _ (List.getElem?_mem hrb))
    refine ⟨ra, rb, hra, hrb, ?_, ?_⟩
    · rw [List.getElem?_map, List.getElem?_range hk]
      simp only [Option.map_some', Nat.zero_add, hg]
    · simp only [List.length_append, h1, h2]
      omega
  · rw [List.map_map]
    simp only [Function.comp_def]
    rw [sum_map_const_of_forall _ _ (2 * m) (fun x hx => hgath x (List.mem_range.1 hx)),
      sum_map_const_of_forall _ _ m hrows]
    simp only [List.length_range, List.length_append, List.length_cons, hA, hB]
    ring_nf

/-- C9: a session with no usable events (every event carries the target
sentinel, or none exist) makes `epoching` fail with the segmentation
error, no partial tensor is returned, and the pipeline aborts before
`save_prepr`, so no output record is written. -/
theorem pipeline_no_events_segmentation_error (α : Type) [Inhabited α]
    (sess : List (Nat × α)) (rest trainSessions : List (List (Nat × α)))
    (ambient : Nat) (whiten : α → α)
    (h : (sess.filter (fun p => p.1 ≠ 99999)).isEmpty = true) :
    epochingM 20 (sess :: rest) ambient = .error .segmentationError ∧
    pipelineM ambient (sess :: rest) trainSessions whiten = .error .segmentationError := by
  have he : epochingSession 20 sess (seedState 20200220)
      = .error .segmentationError := by
    unfold epochingSession
    simp only [h, if_true]
  have hgo : epochingGo 20 (sess :: rest) (seedState 20200220)
      = .error .segmentationError := by
    simp only [epochingGo]
    rw [he]
  refine ⟨hgo, ?_⟩
  unfold pipelineM epochingM
  rw [hgo]

/-- C9 (witness): a session whose only event is the sentinel `99999`. -/
theorem pipeline_no_events_witness :
    ([((99999 : Nat), (0 : Nat))].filter (fun p => p.1 ≠ 99999)).isEmpty = true ∧
    epochingM 20 [[((99999 : Nat), (0 : Nat))]] 0 = .error .segmentationError ∧
    pipelineM 0 [[((99999 : Nat), (0 : Nat))]] [] id = .error .segmentationError :=
  ⟨by decide, pipeline_no_events_segmentation_error Nat [(99999, 0)] [] [] 0 id (by decide)⟩

/-- C4: the MVNN whitening matrix — the fractional power `-0.5` of the
session-averaged covariance matrix — is symmetric, and multiplied by
itself it reproduces the inverse of the averaged covariance matrix
(exact-arithmetic form of the round-trip law `W @ W ≈ Σ⁻¹`), whenever
that matrix is positive definite. -/
theorem mvnn_whitening_symmetric_and_squares_to_inverse (n : ℕ)
    (covTest covTrain : List (Matrix (Fin n) (Fin n) ℝ))
    (h : (sigmaTot covTest covTrain).PosDef) :
    (fmpNegHalf (sigmaTot covTest covTrain)).IsSymm ∧
    fmpNegHalf (sigmaTot covTest covTrain) * fmpNegHalf (sigmaTot covTest covTrain)
      = (sigmaTot covTest covTrain)⁻¹ := by
  have hps : (sigmaTot covTest covTrain).PosSemidef := h.posSemidef
  have hW : fmpNegHalf (sigmaTot covTest covTrain) = hps.sqrt⁻¹ := by
    unfold fmpNegHalf
    rw [dif_pos hps]
  constructor
  · rw [hW]
    have hh : hps.sqrt.IsHermitian := hps.posSemidef_sqrt.isHermitian
    have hsymm : hps.sqrt.IsSymm := by
      unfold Matrix.IsSymm
      rw [← Matrix.conjTranspose_eq_transpose_of_trivial]
      exact hh
    unfold Matrix.IsSymm
    rw [Matrix.transpose_nonsing_inv, hsymm]
  · rw [hW, ← Matrix.mul_inv_rev, hps.sqrt_mul_self]

/-- The session-averaged covariance of identity per-condition estimates
is the identity. -/
theorem sigmaTot_one : sigmaTot [(1 : Matrix (Fin 1) (Fin 1) ℝ)] [1] = 1 := by
  unfold sigmaTot matMean
  simp only [List.length_cons, List.length_nil, List.sum_cons, List.sum_nil, add_zero]
  have h1 : ((0 + 1 : ℕ) : ℝ) = 1 := by norm_num
  have h2 : ((0 + 1 + 1 : ℕ) : ℝ) = 2 := by norm_num
  rw [h1, h2, inv_one, one_smul,
    ← two_smul ℝ (1 : Matrix (Fin 1) (Fin 1) ℝ), smul_smul]
  norm_num

/-- C4 (witness): one channel, identity per-condition covariance
estimates; the averaged covariance is positive definite and the law
holds. -/
theorem mvnn_whitening_symmetric_witness :
    (sigmaTot [(1 : Matrix (Fin 1) (Fin 1) ℝ)] [1]).PosDef ∧
    ((fmpNegHalf (sigmaTot [(1 : Matrix (Fin 1) (Fin 1) ℝ)] [1])).IsSymm ∧
      fmpNegHalf (sigmaTot [(1 : Matrix (Fin 1) (Fin 1) ℝ)] [1])
          * fmpNegHalf (sigmaTot [(1 : Matrix (Fin 1) (Fin 1) ℝ)] [1])
        = (sigmaTot [(1 : Matrix (Fin 1) (Fin 1) ℝ)] [1])⁻¹) := by
  have hpd : (sigmaTot [(1 : Matrix (Fin 1) (Fin 1) ℝ)] [1]).PosDef := by
    rw [sigmaTot_one]
    exact Matrix.PosDef.one
  exact ⟨hpd, mvnn_whitening_symmetric_and_squares_to_inverse 1 [1] [1] hpd⟩

/-- C1 (witness): two sessions, two conditions, two repetitions each:
the merged rows stack both sessions' blocks and mass is preserved. -/
theorem training_merge_two_sessions_witness :
    ∃ rows, trainMerge [[[(0 : Nat), 1], [2, 3]], [[4, 5], [6, 7]]]
        [List.range' 1 2, List.range' 1 2] = .ok rows ∧
      rows.length = 2 ∧
      (∀ k, k < 2 → ∃ ra rb, ([[(0 : Nat), 1], [2, 3]] : List (List Nat))[k]? = some ra ∧
          ([[(4 : Nat), 5], [6, 7]] : List (List Nat))[k]? = some rb ∧
          rows[k]? = some (ra ++ rb) ∧ (ra ++ rb).length = 2 * 2) ∧
      (rows.map List.length).sum
        = (([[(0 : Nat), 1], [2, 3]] ++ [[4, 5], [6, 7]]).map List.length).sum :=
  training_merge_two_sessions_preserves_mass Nat 2 2 [[0, 1], [2, 3]] [[4, 5], [6, 7]]
    (by decide) (by decide) (by decide) (by decide) (by decide)

end EegPrepr
